import Mathlib

/-!
Shallow embedding of `update_stats.py`, a QRZ-logbook statistics updater.

The embedded core consists of the three pure functions of the source:
`parse_adif` (envelope handling plus ADIF record parsing), `compute_stats`
(distinct-value statistics) and `build_logbook_csv` (CSV export).

Python strings are modelled as `List Char` / `String`; `str.upper`,
`str.lower`, `str.strip` and the regex classes `\w`, `\d` are modelled on
their ASCII behaviour (all inputs the program cares about are ASCII).
`sys.exit(1)` with a printed message is modelled as `Except.error` carrying
the message; a successful parse is `Except.ok`.
-/

/-- ASCII model of the whitespace stripped by Python's `str.strip()`. -/
def isSpaceChar (c : Char) : Bool :=
  c = ' ' || c = '\t' || c = '\n' || c = '\r' || c = '\x0b' || c = '\x0c'

/-- Model of Python `str.strip()`: drop leading and trailing whitespace. -/
def pyStrip (l : List Char) : List Char :=
  ((l.dropWhile isSpaceChar).reverse.dropWhile isSpaceChar).reverse

/-- ASCII model of the regex class `\w` (word character). -/
def isWordChar (c : Char) : Bool :=
  c.isAlphanum || c = '_'

/-- Value of a nonempty string of decimal digits, as consumed by `int(length)`. -/
def natOfDigits (ds : List Char) : Nat :=
  ds.foldl (fun n c => n * 10 + (c.toNat - 48)) 0

/-- Python `str.upper()` on the ASCII fragment, characterwise. -/
def upperStr (s : String) : String :=
  String.mk (s.data.map Char.toUpper)

/-- Python `str.lower()` on the ASCII fragment, characterwise. -/
def lowerStr (s : String) : String :=
  String.mk (s.data.map Char.toLower)

/-- Does the second list start with the first one? -/
def startsWithL : List Char → List Char → Bool
  | [], _ => true
  | _ :: _, [] => false
  | a :: as, b :: bs => a = b && startsWithL as bs

/-- Model of Python's `needle in hay` substring test. -/
def containsStr (needle : List Char) : List Char → Bool
  | [] => startsWithL needle []
  | c :: rest => startsWithL needle (c :: rest) || containsStr needle rest

/-- Model of `re.search(r"REASON=([^&]+)", raw)`: scan left to right for the
first position where `REASON=` is followed by at least one non-`&` character;
the captured group is the maximal run of non-`&` characters after the `=`. -/
def findReason : List Char → Option (List Char)
  | [] => none
  | c :: rest =>
    if startsWithL "REASON=".data (c :: rest) then
      let v := ((c :: rest).drop 7).takeWhile (fun d => d != '&')
      if v.isEmpty then findReason rest else some v
    else findReason rest

/-- Model of `re.search(r"ADIF=(.*)", raw, re.DOTALL)`: find the first
occurrence of `ADIF=`; the captured group is the whole remainder of the
input (DOTALL makes `.*` span newlines, and it is greedy). -/
def findAdif : List Char → Option (List Char)
  | [] => none
  | c :: rest =>
    if startsWithL "ADIF=".data (c :: rest) then some ((c :: rest).drop 5)
    else findAdif rest

/-- Hexadecimal digit test, as accepted by `urllib.parse.unquote`. -/
def isHexChar (c : Char) : Bool :=
  c.isDigit || ('a' ≤ c && c ≤ 'f') || ('A' ≤ c && c ≤ 'F')

/-- Value of a hexadecimal digit. -/
def hexVal (c : Char) : Nat :=
  if c.isDigit then c.toNat - 48
  else if 'a' ≤ c then c.toNat - 87
  else c.toNat - 55

/-- First pass of `urllib.parse.unquote`: each valid `%XX` escape becomes a
byte (`Sum.inr`), every other character stays literal (`Sum.inl`); a `%` not
followed by two hex digits is kept literally. -/
def pctTokens : List Char → List (Sum Char Nat)
  | [] => []
  | '%' :: h1 :: h2 :: rest =>
    if isHexChar h1 && isHexChar h2 then
      Sum.inr (hexVal h1 * 16 + hexVal h2) :: pctTokens rest
    else Sum.inl '%' :: pctTokens (h1 :: h2 :: rest)
  | c :: rest => Sum.inl c :: pctTokens rest

/-- Classify a byte as a UTF-8 sequence start: either a character to emit
directly (ASCII, or U+FFFD for an invalid start byte), or the decoder state
(remaining continuation count, accumulator, valid range for the next byte). -/
def utf8Start (b : Nat) : Sum Char (Nat × Nat × Nat × Nat) :=
  if b < 128 then Sum.inl (Char.ofNat b)
  else if 194 ≤ b && b ≤ 223 then Sum.inr (1, b - 192, 128, 191)
  else if b = 224 then Sum.inr (2, 0, 160, 191)
  else if 225 ≤ b && b ≤ 236 then Sum.inr (2, b - 224, 128, 191)
  else if b = 237 then Sum.inr (2, 13, 128, 159)
  else if 238 ≤ b && b ≤ 239 then Sum.inr (2, b - 224, 128, 191)
  else if b = 240 then Sum.inr (3, 0, 144, 191)
  else if 241 ≤ b && b ≤ 243 then Sum.inr (3, b - 240, 128, 191)
  else if b = 244 then Sum.inr (3, 4, 128, 143)
  else Sum.inl '�'

/-- Incremental UTF-8 decoding with replacement (`errors="replace"`) of the
byte tokens produced by `pctTokens`; literal characters pass through and
terminate any pending multi-byte sequence with U+FFFD. -/
def decTok : Option (Nat × Nat × Nat × Nat) → List (Sum Char Nat) → List Char
  | none, [] => []
  | some _, [] => ['�']
  | none, Sum.inl c :: ts => c :: decTok none ts
  | some _, Sum.inl c :: ts => '�' :: c :: decTok none ts
  | none, Sum.inr b :: ts =>
    match utf8Start b with
    | Sum.inl c => c :: decTok none ts
    | Sum.inr st => decTok (some st) ts
  | some (need, acc, lo, hi), Sum.inr b :: ts =>
    if lo ≤ b && b ≤ hi then
      if need ≤ 1 then Char.ofNat (acc * 64 + (b - 128)) :: decTok none ts
      else decTok (some (need - 1, acc * 64 + (b - 128), 128, 191)) ts
    else
      '�' ::
        (match utf8Start b with
         | Sum.inl c => c :: decTok none ts
         | Sum.inr st => decTok (some st) ts)

/-- Model of `urllib.parse.unquote` with its default `errors="replace"`:
decode `%XX` escapes to bytes and UTF-8-decode the byte runs. -/
def unquote (s : List Char) : List Char :=
  decTok none (pctTokens s)

/-- A contact record: a Python dict modelled as an insertion-ordered
association list with unique keys (`insertRec` overwrites in place). -/
abbrev QsoRec := List (String × String)

/-- Python dict assignment `d[k] = v`: overwrite in place if the key exists,
otherwise append at the end. -/
def insertRec (k v : String) : QsoRec → QsoRec
  | [] => [(k, v)]
  | (k', v') :: rest => if k' = k then (k', v) :: rest else (k', v') :: insertRec k v rest

/-- Python dict lookup returning `none` when the key is absent. -/
def lookupRec : QsoRec → String → Option String
  | [], _ => none
  | (k', v) :: rest, k => if k' = k then some v else lookupRec rest k

/-- Python `d.get(k, "")`. -/
def recGet (qso : QsoRec) (k : String) : String :=
  (lookupRec qso k).getD ""

/-- Attempt to match `(\w+):(\d+)(?::\w+)?>([^<]*)` just after a `<`: returns
the field name, the declared length, the value (the literal text up to but
not including the next `<` or end of input) and the rest of the input from
that `<` on. The greedy runs with a required following delimiter make the
regex deterministic, so maximal munch is faithful. -/
def matchField (s : List Char) : Option (List Char × Nat × List Char × List Char) :=
  let name := s.takeWhile isWordChar
  let s1 := s.dropWhile isWordChar
  if name.isEmpty then none
  else
    match s1 with
    | ':' :: s2 =>
      let digs := s2.takeWhile Char.isDigit
      let s3 := s2.dropWhile Char.isDigit
      if digs.isEmpty then none
      else
        match s3 with
        | '>' :: s4 =>
          some (name, natOfDigits digs, s4.takeWhile (fun d => d != '<'), s4.dropWhile (fun d => d != '<'))
        | ':' :: s4 =>
          let ty := s4.takeWhile isWordChar
          let s5 := s4.dropWhile isWordChar
          if ty.isEmpty then none
          else
            match s5 with
            | '>' :: s6 =>
              some (name, natOfDigits digs, s6.takeWhile (fun d => d != '<'), s6.dropWhile (fun d => d != '<'))
            | _ => none
        | _ => none
    | _ => none

/-- Model of `re.findall(r"<(\w+):(\d+)(?::\w+)?>([^<]*)", record)`: scan
left to right, attempting a match at every `<`. `re.findall` resumes after
each non-overlapping match, but a matched span contains no `<` beyond its
first character (name, length, type, `>`, `:` and the `[^<]*` value are all
`<`-free), so the next `<` in the input is exactly where `findall` resumes;
scanning every position is therefore equivalent and keeps the recursion
structural. -/
def extractFieldsAux : List Char → List (List Char × Nat × List Char)
  | [] => []
  | c :: rest =>
    (if c = '<' then
       match matchField rest with
       | some (n, len, v, _) => [(n, len, v)]
       | none => []
     else []) ++ extractFieldsAux rest

/-- The key under which an extracted field is stored: `name.upper()`. -/
def fieldKey (f : List Char × Nat × List Char) : String :=
  String.mk (f.1.map Char.toUpper)

/-- The value stored for an extracted field: `value[:int(length)].strip()`. -/
def fieldVal (f : List Char × Nat × List Char) : String :=
  String.mk (pyStrip (f.2.2.take f.2.1))

/-- Build the record from the extracted fields, as the loop
`qso[name.upper()] = value[:int(length)].strip()` does. -/
def buildQso (fields : List (List Char × Nat × List Char)) : QsoRec :=
  fields.foldl (fun qso f => insertRec (fieldKey f) (fieldVal f) qso) []

/-- Model of `re.split(r"<eor>", adif_data, flags=re.IGNORECASE)`: split on
every non-overlapping case-insensitive occurrence of `<eor>`. The
accumulator holds the current chunk reversed. -/
def splitEorAux : List Char → List Char → List (List Char)
  | acc, [] => [acc.reverse]
  | acc, '<' :: c1 :: c2 :: c3 :: '>' :: rest =>
    if c1.toLower = 'e' && c2.toLower = 'o' && c3.toLower = 'r' then
      acc.reverse :: splitEorAux [] rest
    else splitEorAux ('<' :: acc) (c1 :: c2 :: c3 :: '>' :: rest)
  | acc, c :: rest => splitEorAux (c :: acc) rest

/-- Split the ADIF payload on the case-insensitive record terminator. -/
def splitEor (adif : List Char) : List (List Char) :=
  splitEorAux [] adif

/-- Process one chunk of the split payload: skip it when whitespace-only
(`if not record.strip(): continue`), build the record from its fields and
keep it only when nonempty (`if qso: qsos.append(qso)`). -/
def chunkToQso (record : List Char) : Option QsoRec :=
  if (pyStrip record).isEmpty then none
  else
    let qso := buildQso (extractFieldsAux record)
    if qso.isEmpty then none else some qso

/-- The record-extraction loop of `parse_adif` over an ADIF payload. -/
def parsePayload (adif : List Char) : List QsoRec :=
  (splitEor adif).filterMap chunkToQso

/-- `parse_adif` over the raw response: the `RESULT=FAIL` branch exits with
the extracted reason (default `"desconocido"`); otherwise everything after
the first `ADIF=` is percent-decoded (or, without a marker, the raw input is
used directly) and parsed into records. -/
def parseRaw (raw : List Char) : Except String (List QsoRec) :=
  if containsStr "RESULT=FAIL".data raw then
    Except.error (String.mk ((findReason raw).getD "desconocido".data))
  else
    let adif_data :=
      match findAdif raw with
      | none => raw
      | some rest => unquote rest
    Except.ok (parsePayload adif_data)

/-- String-level entry point of the parser. -/
def parse_adif (raw : String) : Except String (List QsoRec) :=
  parseRaw raw.data

/-- The dictionary returned by `compute_stats`. -/
structure Stats where
  total : Nat
  countries : Nat
  bands : Nat
  modes : Nat
  country_list : List String
  band_list : List String
  mode_list : List String
deriving DecidableEq

/-- Python `set.add`: a set modelled as a duplicate-free list; adding an
element already present leaves the set unchanged. -/
def setAdd (s : List String) (x : String) : List String :=
  if x ∈ s then s else s ++ [x]

/-- The loop of `compute_stats` collecting the three sets. The country is
`qso.get("COUNTRY", "") or qso.get("DXCC", "")` — Python's `or` falls back
exactly when the first operand is the empty string — and is added verbatim;
bands are lower-cased and modes upper-cased; empty values are skipped. -/
def statsStep (acc : List String × List String × List String) (qso : QsoRec) :
    List String × List String × List String :=
  let country :=
    if recGet qso "COUNTRY" = "" then recGet qso "DXCC" else recGet qso "COUNTRY"
  let cs := if country = "" then acc.1 else setAdd acc.1 country
  let bs :=
    if recGet qso "BAND" = "" then acc.2.1 else setAdd acc.2.1 (lowerStr (recGet qso "BAND"))
  let ms :=
    if recGet qso "MODE" = "" then acc.2.2 else setAdd acc.2.2 (upperStr (recGet qso "MODE"))
  (cs, bs, ms)

def statsSets (qsos : List QsoRec) : List String × List String × List String :=
  qsos.foldl statsStep ([], [], [])

/-- Non-strict lexicographic order on character lists by code point — the
order Python's string comparison uses. -/
def strLeB : List Char → List Char → Bool
  | [], _ => true
  | _ :: _, [] => false
  | a :: as, b :: bs => if a = b then strLeB as bs else decide (a < b)

/-- Strict lexicographic order on character lists by code point. -/
def strLtB : List Char → List Char → Bool
  | [], [] => false
  | [], _ :: _ => true
  | _ :: _, [] => false
  | a :: as, b :: bs => if a = b then strLtB as bs else decide (a < b)

/-- Python `sorted` on a set of strings: the elements are pairwise distinct,
so the ascending lexicographic enumeration is unique and insertion sort
computes it. -/
def sortStrings (l : List String) : List String :=
  List.insertionSort (fun a b : String => strLeB a.data b.data = true) l

/-- `compute_stats`: total count plus, per dimension, the set cardinality
and the sorted set contents. -/
def compute_stats (qsos : List QsoRec) : Stats :=
  let sets := statsSets qsos
  ⟨qsos.length, sets.1.length, sets.2.1.length, sets.2.2.length,
    sortStrings sets.1, sortStrings sets.2.1, sortStrings sets.2.2⟩

/-- The country value of a record, as `compute_stats` derives it:
`qso.get("COUNTRY", "") or qso.get("DXCC", "")`. -/
def countryOf (qso : QsoRec) : String :=
  if recGet qso "COUNTRY" = "" then recGet qso "DXCC" else recGet qso "COUNTRY"

/-- The value a record contributes to the country set, if any. -/
def countryKey (qso : QsoRec) : Option String :=
  if countryOf qso = "" then none else some (countryOf qso)

/-- The value a record contributes to the band set, if any (lower-cased). -/
def bandKey (qso : QsoRec) : Option String :=
  if recGet qso "BAND" = "" then none else some (lowerStr (recGet qso "BAND"))

/-- The value a record contributes to the mode set, if any (upper-cased). -/
def modeKey (qso : QsoRec) : Option String :=
  if recGet qso "MODE" = "" then none else some (upperStr (recGet qso "MODE"))

/-- Accumulate one dimension of `statsSets` over the record sequence. -/
def dimFold (f : QsoRec → Option String) (qsos : List QsoRec) (init : List String) :
    List String :=
  qsos.foldl
    (fun s q =>
      match f q with
      | none => s
      | some v => setAdd s v)
    init

/-- The date column of `build_logbook_csv`: when `QSO_DATE` has exactly 8
characters it is reformatted as `date[6:8]/date[4:6]/date[0:4]`, otherwise
it passes through unchanged. -/
def formatDate (date : String) : String :=
  if date.length = 8 then
    String.mk ((date.data.drop 6).take 2) ++ "/" ++
      String.mk ((date.data.drop 4).take 2) ++ "/" ++ String.mk (date.data.take 4)
  else date

/-- One CSV data line for a record, or `none` when the upper-cased `CALL`
is empty (`if not call: continue`); `BAND` and `MODE` default to `"?"` only
when the key is absent (`qso.get("BAND", "?")`). -/
def rowOf (qso : QsoRec) : Option String :=
  let call := upperStr (recGet qso "CALL")
  if call = "" then none
  else
    some (call ++ "," ++ formatDate (recGet qso "QSO_DATE") ++ "," ++
      (lookupRec qso "BAND").getD "?" ++ "," ++ (lookupRec qso "MODE").getD "?")

/-- The data lines of the CSV, in input order. -/
def logbookRows (qsos : List QsoRec) : List String :=
  qsos.filterMap rowOf

/-- `build_logbook_csv`: header line, one line per eligible record, joined
with newlines and terminated by a trailing newline. -/
def build_logbook_csv (qsos : List QsoRec) : String :=
  String.intercalate "\n" ("indicativo,fecha,banda,modo" :: logbookRows qsos) ++ "\n"

/-! ### Helper lemmas -/

theorem length_dropWhile_le' (p : Char → Bool) (l : List Char) :
    (l.dropWhile p).length ≤ l.length := by
  conv_rhs => rw [← List.takeWhile_append_dropWhile p l]
  rw [List.length_append]
  exact Nat.le_add_left _ _

theorem mem_of_mem_dropWhileL {p : Char → Bool} {l : List Char} {x : Char}
    (h : x ∈ l.dropWhile p) : x ∈ l := by
  rw [← List.takeWhile_append_dropWhile p l]
  exact List.mem_append_right _ h

theorem head_dropWhile_false {p : Char → Bool} :
    ∀ {l : List Char} {x : Char} {xs : List Char}, l.dropWhile p = x :: xs → p x = false := by
  intro l
  induction l with
  | nil => intro x xs h; simp [List.dropWhile] at h
  | cons a as ih =>
    intro x xs h
    rw [List.dropWhile_cons] at h
    by_cases hp : p a
    · rw [if_pos hp] at h; exact ih h
    · rw [if_neg hp] at h
      cases h
      simpa using hp

theorem getLast_dropWhile_eq {p : Char → Bool} {z : List Char} {c : Char}
    (h : (z.dropWhile p).getLast? = some c) : z.getLast? = some c := by
  rw [← List.takeWhile_append_dropWhile p z, List.getLast?_append, h]
  rfl

theorem pyStrip_length_le (l : List Char) : (pyStrip l).length ≤ l.length := by
  unfold pyStrip
  rw [List.length_reverse]
  have h1 := length_dropWhile_le' isSpaceChar ((l.dropWhile isSpaceChar).reverse)
  rw [List.length_reverse] at h1
  have h2 := length_dropWhile_le' isSpaceChar l
  omega

theorem mem_of_mem_pyStrip {l : List Char} {x : Char} (h : x ∈ pyStrip l) : x ∈ l := by
  unfold pyStrip at h
  rw [List.mem_reverse] at h
  have h2 := mem_of_mem_dropWhileL h
  rw [List.mem_reverse] at h2
  exact mem_of_mem_dropWhileL h2

theorem pyStrip_getLast_not_space {l : List Char} {c : Char}
    (h : (pyStrip l).getLast? = some c) : isSpaceChar c = false := by
  unfold pyStrip at h
  rw [List.getLast?_reverse] at h
  cases hY : (l.dropWhile isSpaceChar).reverse.dropWhile isSpaceChar with
  | nil => rw [hY] at h; simp at h
  | cons y ys =>
    rw [hY] at h
    simp only [List.head?_cons, Option.some.injEq] at h
    rw [← h]
    exact head_dropWhile_false hY

theorem pyStrip_head_not_space {l : List Char} {c : Char}
    (h : (pyStrip l).head? = some c) : isSpaceChar c = false := by
  unfold pyStrip at h
  rw [List.head?_reverse] at h
  have h2 : (l.dropWhile isSpaceChar).reverse.getLast? = some c := getLast_dropWhile_eq h
  rw [List.getLast?_reverse] at h2
  cases hX : l.dropWhile isSpaceChar with
  | nil => rw [hX] at h2; simp at h2
  | cons x xs =>
    rw [hX] at h2
    simp only [List.head?_cons, Option.some.injEq] at h2
    rw [← h2]
    exact head_dropWhile_false hX

theorem pyStrip_eq_nil_of_all {l : List Char} (h : ∀ c ∈ l, isSpaceChar c = true) :
    pyStrip l = [] := by
  unfold pyStrip
  have h1 : l.dropWhile isSpaceChar = [] := List.dropWhile_eq_nil_iff.mpr h
  rw [h1]
  rfl

theorem all_space_of_pyStrip_eq_nil {l : List Char} (h : pyStrip l = []) :
    ∀ c ∈ l, isSpaceChar c = true := by
  unfold pyStrip at h
  have h1 : (l.dropWhile isSpaceChar).reverse.dropWhile isSpaceChar = [] := by
    have := congrArg List.reverse h
    simpa using this
  have h2 : ∀ c ∈ (l.dropWhile isSpaceChar).reverse, isSpaceChar c = true :=
    List.dropWhile_eq_nil_iff.mp h1
  have h3 : ∀ c ∈ l.dropWhile isSpaceChar, isSpaceChar c = true := by
    intro c hc
    exact h2 c (List.mem_reverse.mpr hc)
  intro c hc
  rw [← List.takeWhile_append_dropWhile isSpaceChar l] at hc
  rcases List.mem_append.mp hc with h4 | h4
  · exact List.mem_takeWhile_imp h4
  · exact h3 c h4

theorem startsWithL_iff : ∀ n h : List Char, startsWithL n h = true ↔ ∃ t, h = n ++ t := by
  intro n
  induction n with
  | nil => intro h; simp [startsWithL]
  | cons a as ih =>
    intro h
    cases h with
    | nil =>
      simp only [startsWithL, List.cons_append]
      constructor
      · intro hfalse; cases hfalse
      · rintro ⟨t, ht⟩; cases ht
    | cons b bs =>
      simp only [startsWithL, Bool.and_eq_true, decide_eq_true_eq, ih, List.cons_append]
      constructor
      · rintro ⟨rfl, t, rfl⟩; exact ⟨t, rfl⟩
      · rintro ⟨t, ht⟩
        injection ht with h1 h2
        exact ⟨h1.symm, t, h2⟩

theorem startsWithL_append (n t : List Char) : startsWithL n (n ++ t) = true :=
  (startsWithL_iff n (n ++ t)).mpr ⟨t, rfl⟩

theorem containsStr_iff (n : List Char) :
    ∀ s, containsStr n s = true ↔ ∃ pre suf, s = pre ++ n ++ suf := by
  intro s
  induction s with
  | nil =>
    simp only [containsStr, startsWithL_iff]
    constructor
    · rintro ⟨t, ht⟩
      exact ⟨[], t, by simpa using ht⟩
    · rintro ⟨pre, suf, h⟩
      cases pre with
      | nil => exact ⟨suf, by simpa using h⟩
      | cons p ps => cases h
  | cons c rest ih =>
    simp only [containsStr, Bool.or_eq_true, startsWithL_iff, ih]
    constructor
    · rintro (⟨t, ht⟩ | ⟨pre, suf, h⟩)
      · exact ⟨[], t, by simpa using ht⟩
      · exact ⟨c :: pre, suf, by simp [h]⟩
    · rintro ⟨pre, suf, h⟩
      cases pre with
      | nil => exact Or.inl ⟨suf, by simpa using h⟩
      | cons p ps =>
        right
        have h2 : c = p ∧ rest = ps ++ n ++ suf := by
          simpa using h
        exact ⟨ps, suf, h2.2⟩

theorem insertRec_ne_nil (k v : String) (m : QsoRec) : insertRec k v m ≠ [] := by
  cases m with
  | nil => simp [insertRec]
  | cons hd tl =>
    rw [insertRec]
    split <;> simp

theorem mem_insertRec {k v : String} {x : String × String} :
    ∀ {m : QsoRec}, x ∈ insertRec k v m → x = (k, v) ∨ x ∈ m := by
  intro m
  induction m with
  | nil => intro h; simpa [insertRec] using h
  | cons hd tl ih =>
    intro h
    by_cases hk : hd.1 = k
    · rw [show (hd :: tl : QsoRec) = (hd.1, hd.2) :: tl by rw [Prod.mk.eta], insertRec,
        if_pos hk] at h
      rcases List.mem_cons.mp h with h1 | h1
      · left; rw [h1, hk]
      · right; exact List.mem_cons_of_mem _ h1
    · rw [show (hd :: tl : QsoRec) = (hd.1, hd.2) :: tl by rw [Prod.mk.eta], insertRec,
        if_neg hk] at h
      rcases List.mem_cons.mp h with h1 | h1
      · right; rw [Prod.mk.eta] at h1; exact h1 ▸ List.mem_cons_self _ _
      · rcases ih h1 with h2 | h2
        · exact Or.inl h2
        · exact Or.inr (List.mem_cons_of_mem _ h2)

theorem lookupRec_insertRec_self (k v : String) :
    ∀ m : QsoRec, lookupRec (insertRec k v m) k = some v := by
  intro m
  induction m with
  | nil => simp [insertRec, lookupRec]
  | cons hd tl ih =>
    rw [show (hd :: tl : QsoRec) = (hd.1, hd.2) :: tl by rw [Prod.mk.eta], insertRec]
    by_cases hk : hd.1 = k
    · rw [if_pos hk, lookupRec, if_pos hk]
    · rw [if_neg hk, lookupRec, if_neg hk]
      exact ih

theorem lookupRec_insertRec_ne {k' k : String} (v : String) (hne : k' ≠ k) :
    ∀ m : QsoRec, lookupRec (insertRec k' v m) k = lookupRec m k := by
  intro m
  induction m with
  | nil => simp [insertRec, lookupRec, if_neg hne]
  | cons hd tl ih =>
    rw [show (hd :: tl : QsoRec) = (hd.1, hd.2) :: tl by rw [Prod.mk.eta], insertRec]
    by_cases hk : hd.1 = k'
    · rw [if_pos hk, lookupRec, lookupRec]
      have hne2 : ¬hd.1 = k := by rw [hk]; exact hne
      rw [if_neg hne2, if_neg hne2]
    · rw [if_neg hk, lookupRec, lookupRec]
      by_cases hk2 : hd.1 = k
      · rw [if_pos hk2, if_pos hk2]
      · rw [if_neg hk2, if_neg hk2]
        exact ih

theorem foldl_insert_ne_nil (fs : List (List Char × Nat × List Char)) :
    ∀ acc : QsoRec, acc ≠ [] →
      fs.foldl (fun qso f => insertRec (fieldKey f) (fieldVal f) qso) acc ≠ [] := by
  induction fs with
  | nil => intro acc h; simpa using h
  | cons f fs ih =>
    intro acc _
    rw [List.foldl_cons]
    exact ih _ (insertRec_ne_nil _ _ _)

theorem buildQso_eq_nil_iff (fs : List (List Char × Nat × List Char)) :
    buildQso fs = [] ↔ fs = [] := by
  cases fs with
  | nil => simp [buildQso]
  | cons f fs =>
    constructor
    · intro h
      rw [buildQso, List.foldl_cons] at h
      exact absurd h (foldl_insert_ne_nil fs _ (insertRec_ne_nil _ _ _))
    · intro h; cases h

theorem foldl_insert_mem (fs : List (List Char × Nat × List Char)) :
    ∀ (acc : QsoRec) (x : String × String),
      x ∈ fs.foldl (fun qso f => insertRec (fieldKey f) (fieldVal f) qso) acc →
      x ∈ acc ∨ ∃ f ∈ fs, x = (fieldKey f, fieldVal f) := by
  induction fs with
  | nil => intro acc x h; exact Or.inl h
  | cons f fs ih =>
    intro acc x h
    rw [List.foldl_cons] at h
    rcases ih _ _ h with h1 | ⟨g, hg, hx⟩
    · rcases mem_insertRec h1 with h2 | h2
      · exact Or.inr ⟨f, List.mem_cons_self _ _, h2⟩
      · exact Or.inl h2
    · exact Or.inr ⟨g, List.mem_cons_of_mem _ hg, hx⟩

theorem buildQso_mem {fs : List (List Char × Nat × List Char)} {x : String × String}
    (h : x ∈ buildQso fs) : ∃ f ∈ fs, x = (fieldKey f, fieldVal f) := by
  rcases foldl_insert_mem fs [] x h with h1 | h1
  · cases h1
  · exact h1

theorem foldl_insert_lookup (fs : List (List Char × Nat × List Char)) :
    ∀ (acc : QsoRec) (k : String), (∀ g ∈ fs, fieldKey g ≠ k) →
      lookupRec (fs.foldl (fun qso f => insertRec (fieldKey f) (fieldVal f) qso) acc) k =
        lookupRec acc k := by
  induction fs with
  | nil => intro acc k _; rfl
  | cons f fs ih =>
    intro acc k h
    rw [List.foldl_cons, ih _ _ (fun g hg => h g (List.mem_cons_of_mem _ hg))]
    exact lookupRec_insertRec_ne _ (h f (List.mem_cons_self _ _)) _

theorem buildQso_last_wins (fs1 : List (List Char × Nat × List Char))
    (f : List Char × Nat × List Char) (fs2 : List (List Char × Nat × List Char))
    (h : ∀ g ∈ fs2, fieldKey g ≠ fieldKey f) :
    lookupRec (buildQso (fs1 ++ f :: fs2)) (fieldKey f) = some (fieldVal f) := by
  rw [buildQso, List.foldl_append, List.foldl_cons, foldl_insert_lookup fs2 _ _ h]
  exact lookupRec_insertRec_self _ _ _

example :
    compute_stats [[("BAND", "40M")], [("BAND", "40m")]] =
      ⟨2, 0, 1, 0, [], ["40m"], []⟩ := by rfl

example :
    build_logbook_csv [[("CALL", "w1abc"), ("QSO_DATE", "20240115")], [("BAND", "40m")],
        [("CALL", "EA1X"), ("MODE", "CW")]] =
      "indicativo,fecha,banda,modo\nW1ABC,15/01/2024,?,?\nEA1X,,?,CW\n" := by rfl

example : formatDate "2024" = "2024" := by rfl

example : parse_adif "<CALL:3>ABCDEF<eor>" = Except.ok [[("CALL", "ABC")]] := by rfl

example :
    parse_adif "<CALL:5>W1ABC<BAND:3>40m<MODE:3>SSB<eor>" =
      Except.ok [[("CALL", "W1ABC"), ("BAND", "40m"), ("MODE", "SSB")]] := by rfl

example : parse_adif "RESULT=FAIL&REASON=Invalid+Key" = Except.error "Invalid+Key" := by rfl

example : parse_adif "RESULT=FAIL" = Except.error "desconocido" := by rfl

example : parse_adif "RESULT=OK&ADIF=%3CCALL:2%3EAB<eor>" = Except.ok [[("CALL", "AB")]] := by rfl

example : parse_adif "   \n  " = Except.ok [] := by rfl

theorem string_data_inj {a b : String} (h : a.data = b.data) : a = b := by
  cases a
  cases b
  exact congrArg String.mk h

theorem strLeB_total : ∀ a b : List Char, strLeB a b = true ∨ strLeB b a = true := by
  intro a
  induction a with
  | nil => intro b; left; simp [strLeB]
  | cons x xs ih =>
    intro b
    cases b with
    | nil => right; simp [strLeB]
    | cons y ys =>
      by_cases hxy : x = y
      · subst hxy
        rcases ih ys with h | h
        · left; simp [strLeB, h]
        · right; simp [strLeB, h]
      · rcases lt_or_gt_of_ne hxy with h | h
        · left; simp [strLeB, hxy, h]
        · right; simp [strLeB, Ne.symm hxy, h]

theorem strLeB_trans :
    ∀ a b c : List Char, strLeB a b = true → strLeB b c = true → strLeB a c = true := by
  intro a
  induction a with
  | nil => intro b c _ _; simp [strLeB]
  | cons x xs ih =>
    intro b c hab hbc
    cases b with
    | nil => simp [strLeB] at hab
    | cons y ys =>
      cases c with
      | nil => simp [strLeB] at hbc
      | cons z zs =>
        simp only [strLeB] at hab hbc ⊢
        by_cases hxy : x = y
        · subst hxy
          rw [if_pos rfl] at hab
          by_cases hxz : x = z
          · subst hxz
            rw [if_pos rfl] at hbc ⊢
            exact ih _ _ hab hbc
          · rw [if_neg hxz] at hbc ⊢
            exact hbc
        · rw [if_neg hxy] at hab
          by_cases hyz : y = z
          · subst hyz
            rw [if_neg hxy]
            exact hab
          · rw [if_neg hyz] at hbc
            have hlt : x < z := lt_trans (of_decide_eq_true hab) (of_decide_eq_true hbc)
            rw [if_neg (ne_of_lt hlt)]
            exact decide_eq_true hlt

theorem strLtB_of_le_of_ne :
    ∀ a b : List Char, strLeB a b = true → a ≠ b → strLtB a b = true := by
  intro a
  induction a with
  | nil =>
    intro b _ hne
    cases b with
    | nil => exact absurd rfl hne
    | cons y ys => simp [strLtB]
  | cons x xs ih =>
    intro b hle hne
    cases b with
    | nil => simp [strLeB] at hle
    | cons y ys =>
      simp only [strLeB] at hle
      simp only [strLtB]
      by_cases hxy : x = y
      · subst hxy
        rw [if_pos rfl] at hle ⊢
        refine ih _ hle fun hcontra => hne ?_
        rw [hcontra]
      · rw [if_neg hxy] at hle ⊢
        exact hle

theorem mem_setAdd {s : List String} {y x : String} :
    x ∈ setAdd s y ↔ x ∈ s ∨ x = y := by
  unfold setAdd
  by_cases hy : y ∈ s
  · rw [if_pos hy]
    constructor
    · exact Or.inl
    · rintro (h | rfl)
      · exact h
      · exact hy
  · rw [if_neg hy]
    simp

theorem nodup_setAdd {s : List String} {y : String} (h : s.Nodup) : (setAdd s y).Nodup := by
  unfold setAdd
  by_cases hy : y ∈ s
  · rwa [if_pos hy]
  · rw [if_neg hy]
    refine List.nodup_append.mpr ⟨h, List.nodup_singleton y, ?_⟩
    intro a ha hay
    rw [List.mem_singleton] at hay
    exact hy (hay ▸ ha)

theorem dimFold_mem (f : QsoRec → Option String) :
    ∀ (qsos : List QsoRec) (init : List String) (x : String),
      x ∈ dimFold f qsos init ↔ x ∈ init ∨ ∃ q ∈ qsos, f q = some x := by
  intro qsos
  induction qsos with
  | nil => intro init x; simp [dimFold]
  | cons q qsos ih =>
    intro init x
    rw [dimFold, List.foldl_cons]
    rw [show (qsos.foldl
        (fun s q =>
          match f q with
          | none => s
          | some v => setAdd s v)
        (match f q with
         | none => init
         | some v => setAdd init v)) =
      dimFold f qsos
        (match f q with
         | none => init
         | some v => setAdd init v) from rfl, ih]
    cases hf : f q with
    | none =>
      simp only [List.mem_cons]
      constructor
      · rintro (h | ⟨g, hg, hgx⟩)
        · exact Or.inl h
        · exact Or.inr ⟨g, Or.inr hg, hgx⟩
      · rintro (h | ⟨g, hg | hg, hgx⟩)
        · exact Or.inl h
        · rw [hg, hf] at hgx; cases hgx
        · exact Or.inr ⟨g, hg, hgx⟩
    | some v =>
      simp only [List.mem_cons, mem_setAdd]
      constructor
      · rintro ((h | rfl) | ⟨g, hg, hgx⟩)
        · exact Or.inl h
        · exact Or.inr ⟨q, Or.inl rfl, hf⟩
        · exact Or.inr ⟨g, Or.inr hg, hgx⟩
      · rintro (h | ⟨g, hg | hg, hgx⟩)
        · exact Or.inl (Or.inl h)
        · rw [hg, hf] at hgx
          injection hgx with hv
          exact Or.inl (Or.inr hv.symm)
        · exact Or.inr ⟨g, hg, hgx⟩

theorem dimFold_nodup (f : QsoRec → Option String) :
    ∀ (qsos : List QsoRec) (init : List String), init.Nodup → (dimFold f qsos init).Nodup := by
  intro qsos
  induction qsos with
  | nil => intro init h; simpa [dimFold] using h
  | cons q qsos ih =>
    intro init h
    rw [dimFold, List.foldl_cons]
    cases hf : f q with
    | none => exact ih init h
    | some v => exact ih _ (nodup_setAdd h)

theorem statsStep_eq (acc : List String × List String × List String) (qso : QsoRec) :
    statsStep acc qso =
      ((match countryKey qso with
        | none => acc.1
        | some v => setAdd acc.1 v),
       (match bandKey qso with
        | none => acc.2.1
        | some v => setAdd acc.2.1 v),
       (match modeKey qso with
        | none => acc.2.2
        | some v => setAdd acc.2.2 v)) := by
  unfold statsStep countryKey bandKey modeKey countryOf
  by_cases hc : (if recGet qso "COUNTRY" = "" then recGet qso "DXCC" else recGet qso "COUNTRY") = "" <;>
    by_cases hb : recGet qso "BAND" = "" <;>
      by_cases hm : recGet qso "MODE" = "" <;>
        simp [hc, hb, hm]

theorem statsSets_eq (qsos : List QsoRec) :
    ∀ acc,
      qsos.foldl statsStep acc =
        (dimFold countryKey qsos acc.1, dimFold bandKey qsos acc.2.1,
          dimFold modeKey qsos acc.2.2) := by
  induction qsos with
  | nil => intro acc; simp [dimFold]
  | cons q qsos ih =>
    intro acc
    rw [List.foldl_cons, ih, statsStep_eq]
    rfl

theorem sortStrings_perm (l : List String) : List.Perm (sortStrings l) l :=
  List.perm_insertionSort _ l

theorem mem_sortStrings {l : List String} {x : String} : x ∈ sortStrings l ↔ x ∈ l :=
  (sortStrings_perm l).mem_iff

theorem length_sortStrings (l : List String) : (sortStrings l).length = l.length :=
  (sortStrings_perm l).length_eq

theorem sortStrings_sorted (l : List String) :
    List.Sorted (fun a b : String => strLeB a.data b.data = true) (sortStrings l) :=
  @List.sorted_insertionSort String (fun a b : String => strLeB a.data b.data = true)
    (fun _ _ => instDecidableEqBool _ _)
    ⟨fun a b => strLeB_total a.data b.data⟩
    ⟨fun _ _ _ h1 h2 => strLeB_trans _ _ _ h1 h2⟩ l

theorem sortStrings_pairwise_lt {l : List String} (h : l.Nodup) :
    List.Pairwise (fun a b : String => strLtB a.data b.data = true) (sortStrings l) := by
  have hs := sortStrings_sorted l
  have hn : (sortStrings l).Nodup := (sortStrings_perm l).nodup_iff.mpr h
  have := List.Pairwise.and hs hn
  exact this.imp fun hab =>
    strLtB_of_le_of_ne _ _ hab.1 fun hd => hab.2 (string_data_inj hd)

theorem char_toNat_ofNat {n : Nat} (h : n.isValidChar) : (Char.ofNat n).toNat = n := by
  unfold Char.ofNat
  rw [dif_pos h]
  rfl

theorem char_isLower_iff (c : Char) : c.isLower = true ↔ 97 ≤ c.toNat ∧ c.toNat ≤ 122 := by
  unfold Char.isLower
  rw [Bool.and_eq_true, decide_eq_true_iff, decide_eq_true_iff]
  have h1 : (c.val ≥ 97) ↔ 97 ≤ c.toNat := by
    rw [ge_iff_le, UInt32.le_def, BitVec.le_def]
    exact Iff.rfl
  have h2 : (c.val ≤ (122 : UInt32)) ↔ c.toNat ≤ 122 := by
    rw [UInt32.le_def, BitVec.le_def]
    exact Iff.rfl
  rw [h1, h2]

theorem toUpper_isLower_false (c : Char) : (c.toUpper).isLower = false := by
  show (if c.toNat ≥ 97 ∧ c.toNat ≤ 122 then Char.ofNat (c.toNat - 32) else c).isLower = false
  by_cases h : c.toNat ≥ 97 ∧ c.toNat ≤ 122
  · rw [if_pos h]
    have hv : (c.toNat - 32).isValidChar := Or.inl (by omega)
    have ht := char_toNat_ofNat hv
    rw [Bool.eq_false_iff]
    intro hl
    rw [char_isLower_iff, ht] at hl
    omega
  · rw [if_neg h]
    rw [Bool.eq_false_iff]
    intro hl
    rw [char_isLower_iff] at hl
    exact h hl

theorem matchField_spec {s n : List Char} {len : Nat} {v r : List Char}
    (h : matchField s = some (n, len, v, r)) :
    n = s.takeWhile isWordChar ∧ n ≠ [] ∧
    ∃ ds rest0,
      ds ≠ [] ∧ (∀ c ∈ ds, c.isDigit = true) ∧ len = natOfDigits ds ∧
      v = rest0.takeWhile (fun d => d != '<') ∧
      r = rest0.dropWhile (fun d => d != '<') ∧
      (s = n ++ ':' :: (ds ++ '>' :: rest0) ∨
        ∃ ty, ty ≠ [] ∧ (∀ c ∈ ty, isWordChar c = true) ∧
          s = n ++ ':' :: (ds ++ ':' :: (ty ++ '>' :: rest0))) := by
  simp only [matchField] at h
  split at h
  · exact Option.noConfusion h
  · rename_i hname
    split at h
    · rename_i s2 hs1
      split at h
      · exact Option.noConfusion h
      · rename_i hdigs
        split at h
        · rename_i s4 hs3
          simp only [Option.some.injEq, Prod.mk.injEq] at h
          obtain ⟨h1, h2, h3, h4⟩ := h
          subst h1 h2 h3 h4
          refine ⟨rfl, by simpa using hname, s2.takeWhile Char.isDigit, s4, by simpa using hdigs,
            fun c hc => List.mem_takeWhile_imp hc, rfl, rfl, rfl, Or.inl ?_⟩
          conv_lhs => rw [← List.takeWhile_append_dropWhile isWordChar s]
          rw [hs1]
          congr 1
          conv_lhs => rw [← List.takeWhile_append_dropWhile Char.isDigit s2]
          rw [hs3]
        · rename_i s4 hs3
          split at h
          · exact Option.noConfusion h
          · rename_i hty
            split at h
            · rename_i s6 hs5
              simp only [Option.some.injEq, Prod.mk.injEq] at h
              obtain ⟨h1, h2, h3, h4⟩ := h
              subst h1 h2 h3 h4
              refine ⟨rfl, by simpa using hname, s2.takeWhile Char.isDigit, s6, by simpa using hdigs,
                fun c hc => List.mem_takeWhile_imp hc, rfl, rfl, rfl,
                Or.inr ⟨s4.takeWhile isWordChar, by simpa using hty,
                  fun c hc => List.mem_takeWhile_imp hc, ?_⟩⟩
              conv_lhs => rw [← List.takeWhile_append_dropWhile isWordChar s]
              rw [hs1]
              congr 1
              conv_lhs => rw [← List.takeWhile_append_dropWhile Char.isDigit s2]
              rw [hs3]
              congr 2
              conv_lhs => rw [← List.takeWhile_append_dropWhile isWordChar s4]
              rw [hs5]
            · exact Option.noConfusion h
        · exact Option.noConfusion h
    · exact Option.noConfusion h

theorem extractFieldsAux_mem :
    ∀ {s : List Char} {f : List Char × Nat × List Char}, f ∈ extractFieldsAux s →
      ∃ t r, matchField t = some (f.1, f.2.1, f.2.2, r) := by
  intro s
  induction s with
  | nil => intro f h; simp [extractFieldsAux] at h
  | cons c rest ih =>
    intro f h
    rw [extractFieldsAux] at h
    rcases List.mem_append.mp h with h1 | h1
    · split at h1
      · split at h1
        · rename_i n len v r hm
          rw [List.mem_singleton] at h1
          subst h1
          exact ⟨rest, r, hm⟩
        · simp at h1
      · simp at h1
    · exact ih h1

theorem extractFields_props {s : List Char} {f : List Char × Nat × List Char}
    (hf : f ∈ extractFieldsAux s) :
    f.1 ≠ [] ∧ (∀ c ∈ f.1, isWordChar c = true) ∧ (∀ c ∈ f.2.2, c ≠ '<') := by
  obtain ⟨t, r, hm⟩ := extractFieldsAux_mem hf
  obtain ⟨hn, hne, ds, rest0, _, _, _, hv, _, _⟩ := matchField_spec hm
  refine ⟨hne, ?_, ?_⟩
  · intro c hc
    rw [hn] at hc
    exact List.mem_takeWhile_imp hc
  · intro c hc
    rw [hv] at hc
    have h2 := List.mem_takeWhile_imp hc
    simpa using h2

theorem splitEorAux_chars :
    ∀ acc l : List Char, ∀ chunk ∈ splitEorAux acc l, ∀ c ∈ chunk, c ∈ acc ∨ c ∈ l := by
  intro acc l
  induction acc, l using splitEorAux.induct with
  | case1 acc =>
    intro chunk hch c hc
    rw [splitEorAux.eq_1, List.mem_singleton] at hch
    subst hch
    exact Or.inl (List.mem_reverse.mp hc)
  | case2 acc c1 c2 c3 rest hcond ih =>
    intro chunk hch c hc
    rw [splitEorAux.eq_2, if_pos hcond] at hch
    rcases List.mem_cons.mp hch with h1 | h1
    · subst h1
      exact Or.inl (List.mem_reverse.mp hc)
    · rcases ih chunk h1 c hc with h2 | h2
      · simp at h2
      · right
        simp [h2]
  | case3 acc c1 c2 c3 rest hcond ih =>
    intro chunk hch c hc
    rw [splitEorAux.eq_2, if_neg hcond] at hch
    rcases ih chunk hch c hc with h1 | h1
    · rcases List.mem_cons.mp h1 with h2 | h2
      · subst h2
        exact Or.inr (List.mem_cons_self _ _)
      · exact Or.inl h2
    · right
      exact List.mem_cons_of_mem _ h1
  | case4 acc c rest hne ih =>
    intro chunk hch c' hc'
    rw [splitEorAux.eq_3 _ _ _ hne] at hch
    rcases ih chunk hch c' hc' with h1 | h1
    · rcases List.mem_cons.mp h1 with h2 | h2
      · subst h2
        exact Or.inr (List.mem_cons_self _ _)
      · exact Or.inl h2
    · right
      exact List.mem_cons_of_mem _ h1

theorem findReason_sound :
    ∀ {s v : List Char}, findReason s = some v →
      ∃ pre suf, s = pre ++ "REASON=".data ++ v ++ suf ∧ v ≠ [] ∧
        (∀ c ∈ v, c ≠ '&') ∧ (suf = [] ∨ ∃ suf2, suf = '&' :: suf2) := by
  intro s
  induction s with
  | nil => intro v h; simp [findReason] at h
  | cons c rest ih =>
    intro v h
    simp only [findReason] at h
    split at h
    · rename_i hsw
      split at h
      · obtain ⟨pre, suf, heq, hv, hamp, hsuf⟩ := ih h
        exact ⟨c :: pre, suf, by simp [heq], hv, hamp, hsuf⟩
      · rename_i hne
        injection h with hv0
        obtain ⟨t, ht⟩ := (startsWithL_iff _ _).mp hsw
        have hdrop : (c :: rest).drop 7 = t := by
          rw [ht, show (7 : Nat) = ("REASON=".data).length from rfl]
          exact List.drop_left _ _
        refine ⟨[], (t.dropWhile (fun d => d != '&')), ?_, ?_, ?_, ?_⟩
        · rw [List.nil_append, ← hv0, hdrop, ht]
          rw [List.append_assoc]
          congr 1
          exact (List.takeWhile_append_dropWhile _ _).symm
        · rw [← hv0, hdrop]
          rw [hdrop] at hne
          intro hcontra
          exact hne (by rw [hcontra]; rfl)
        · intro d hd
          rw [← hv0, hdrop] at hd
          have h2 := List.mem_takeWhile_imp hd
          simpa using h2
        · cases hdw : t.dropWhile (fun d => d != '&') with
          | nil => exact Or.inl rfl
          | cons d ds =>
            have h2 := head_dropWhile_false hdw
            have h3 : d = '&' := by simpa using h2
            exact Or.inr ⟨ds, by rw [h3]⟩
    · obtain ⟨pre, suf, heq, hv, hamp, hsuf⟩ := ih h
      exact ⟨c :: pre, suf, by simp [heq], hv, hamp, hsuf⟩

theorem takeWhile_ne_nil_of_all {q : Char → Bool} {v : List Char} (suf : List Char)
    (hv : v ≠ []) (hall : ∀ c ∈ v, q c = true) : (v ++ suf).takeWhile q ≠ [] := by
  cases v with
  | nil => exact absurd rfl hv
  | cons a as =>
    rw [List.cons_append, List.takeWhile_cons, hall a (List.mem_cons_self _ _)]
    simp

theorem findReason_cons_startsWith {c : Char} {rest : List Char}
    (hsw : startsWithL "REASON=".data (c :: rest) = true)
    (hne : ((c :: rest).drop 7).takeWhile (fun d => d != '&') ≠ []) :
    (findReason (c :: rest)).isSome = true := by
  simp only [findReason]
  rw [if_pos hsw]
  split
  · rename_i hEmpty
    exact absurd (List.isEmpty_iff.mp hEmpty) hne
  · rfl

theorem findReason_isSome_append :
    ∀ pre v suf : List Char, v ≠ [] → (∀ c ∈ v, c ≠ '&') →
      (findReason (pre ++ ("REASON=".data ++ (v ++ suf)))).isSome = true := by
  intro pre
  induction pre with
  | nil =>
    intro v suf hv hall
    have heq : ("REASON=".data ++ (v ++ suf)) = 'R' :: ("EASON=".data ++ (v ++ suf)) := rfl
    rw [List.nil_append, heq]
    apply findReason_cons_startsWith
    · rw [← heq]
      exact startsWithL_append _ _
    · rw [← heq, show (7 : Nat) = ("REASON=".data).length from rfl, List.drop_left]
      exact takeWhile_ne_nil_of_all suf hv fun c hc => by simpa using hall c hc
  | cons c pre' ih =>
    intro v suf hv hall
    rw [List.cons_append]
    simp only [findReason]
    split
    · split
      · exact ih v suf hv hall
      · rfl
    · exact ih v suf hv hall

theorem findReason_none_iff (s : List Char) :
    findReason s = none ↔
      ¬∃ pre v suf, s = pre ++ "REASON=".data ++ v ++ suf ∧ v ≠ [] ∧ ∀ c ∈ v, c ≠ '&' := by
  constructor
  · rintro h ⟨pre, v, suf, heq, hv, hall⟩
    have h2 := findReason_isSome_append pre v suf hv hall
    have heq2 : pre ++ ("REASON=".data ++ (v ++ suf)) = s := by
      rw [heq]
      simp [List.append_assoc]
    rw [heq2, h] at h2
    exact Bool.noConfusion h2
  · intro h
    cases hf : findReason s with
    | none => rfl
    | some v =>
      obtain ⟨pre, suf, heq, hv, hall, _⟩ := findReason_sound hf
      exact absurd ⟨pre, v, suf, heq, hv, hall⟩ h

theorem findAdif_sound :
    ∀ {s r : List Char}, findAdif s = some r →
      ∃ pre, s = pre ++ "ADIF=".data ++ r ∧
        ∀ p q : List Char, s = p ++ "ADIF=".data ++ q → pre.length ≤ p.length := by
  intro s
  induction s with
  | nil => intro r h; simp [findAdif] at h
  | cons c rest ih =>
    intro r h
    simp only [findAdif] at h
    split at h
    · rename_i hsw
      injection h with hr
      obtain ⟨t, ht⟩ := (startsWithL_iff _ _).mp hsw
      have hdrop : (c :: rest).drop 5 = t := by
        rw [ht, show (5 : Nat) = ("ADIF=".data).length from rfl]
        exact List.drop_left _ _
      refine ⟨[], ?_, ?_⟩
      · rw [← hr, hdrop, List.nil_append, ht]
      · intro p q hpq
        exact Nat.zero_le _
    · rename_i hsw
      obtain ⟨pre, heq, hmin⟩ := ih h
      refine ⟨c :: pre, by simp [heq], ?_⟩
      intro p q hpq
      cases p with
      | nil =>
        exfalso
        apply hsw
        rw [List.nil_append] at hpq
        rw [hpq]
        exact startsWithL_append _ _
      | cons p0 ps =>
        have h2 : rest = ps ++ "ADIF=".data ++ q := by
          have h3 : c :: rest = p0 :: (ps ++ "ADIF=".data ++ q) := by simpa using hpq
          injection h3 with _ h4
        have h5 := hmin ps q h2
        simp only [List.length_cons]
        omega

theorem findAdif_none_iff : ∀ s : List Char, findAdif s = none ↔
    containsStr "ADIF=".data s = false := by
  intro s
  induction s with
  | nil =>
    constructor
    · intro _; rfl
    · intro _; rfl
  | cons c rest ih =>
    by_cases hsw : startsWithL "ADIF=".data (c :: rest) = true
    · rw [findAdif, if_pos hsw, containsStr, hsw]
      simp
    · rw [findAdif, if_neg hsw, containsStr]
      have hsw2 : startsWithL "ADIF=".data (c :: rest) = false := by
        rwa [Bool.not_eq_true] at hsw
      rw [hsw2, Bool.false_or]
      exact ih

theorem mem_parsePayload {adif : List Char} {qso : QsoRec} (h : qso ∈ parsePayload adif) :
    ∃ chunk ∈ splitEor adif, chunkToQso chunk = some qso ∧
      qso = buildQso (extractFieldsAux chunk) ∧ (pyStrip chunk).isEmpty = false := by
  rw [parsePayload] at h
  obtain ⟨chunk, hchunk, hc⟩ := List.mem_filterMap.mp h
  refine ⟨chunk, hchunk, hc, ?_, ?_⟩
  · simp only [chunkToQso] at hc
    split at hc
    · exact Option.noConfusion hc
    · split at hc
      · exact Option.noConfusion hc
      · injection hc with h2
        exact h2.symm
  · simp only [chunkToQso] at hc
    split at hc
    · exact Option.noConfusion hc
    · rename_i hstrip
      rwa [Bool.not_eq_true] at hstrip

theorem chunkToQso_isSome (chunk : List Char) :
    (chunkToQso chunk).isSome = true ↔ pyStrip chunk ≠ [] ∧ extractFieldsAux chunk ≠ [] := by
  simp only [chunkToQso]
  by_cases h1 : (pyStrip chunk).isEmpty = true
  · rw [if_pos h1]
    simp [List.isEmpty_iff.mp h1]
  · rw [if_neg h1]
    have h1' : pyStrip chunk ≠ [] := by simpa [List.isEmpty_iff] using h1
    by_cases h2 : (buildQso (extractFieldsAux chunk)).isEmpty = true
    · rw [if_pos h2]
      have h3 := (buildQso_eq_nil_iff _).mp (List.isEmpty_iff.mp h2)
      simp [h1', h3]
    · rw [if_neg h2]
      have h3 : buildQso (extractFieldsAux chunk) ≠ [] := by
        simpa [List.isEmpty_iff] using h2
      have h4 : extractFieldsAux chunk ≠ [] := fun hc => h3 (by rw [hc]; rfl)
      simp [h1', h4]

theorem length_filterMap_eq {α β : Type} (f : α → Option β) :
    ∀ l : List α, (l.filterMap f).length = (l.filter fun x => (f x).isSome).length := by
  intro l
  induction l with
  | nil => rfl
  | cons a l ih =>
    rw [List.filterMap_cons, List.filter_cons]
    cases hf : f a with
    | none => simp [hf, ih]
    | some b => simp [hf, ih]

theorem intercalate_go_newline :
    ∀ (ls : List String) (acc : String),
      String.intercalate.go acc "\n" ls ++ "\n" =
        List.foldl (fun r s => r ++ s) (acc ++ "\n") (ls.map fun l => l ++ "\n") := by
  intro ls
  induction ls with
  | nil => intro acc; rfl
  | cons a as ih =>
    intro acc
    rw [show String.intercalate.go acc "\n" (a :: as) =
        String.intercalate.go (acc ++ "\n" ++ a) "\n" as from rfl]
    rw [ih, List.map_cons, List.foldl_cons]
    congr 1
    exact String.append_assoc (acc ++ "\n") a "\n"

theorem intercalate_newline (h : String) (ls : List String) :
    String.intercalate "\n" (h :: ls) ++ "\n" =
      List.foldl (fun r s => r ++ s) (h ++ "\n") (ls.map fun l => l ++ "\n") := by
  rw [show String.intercalate "\n" (h :: ls) = String.intercalate.go h "\n" ls from rfl]
  exact intercalate_go_newline ls h

theorem foldl_append_init (ls : List String) :
    ∀ init : String,
      List.foldl (fun r s => r ++ s) init ls = init ++ List.foldl (fun r s => r ++ s) "" ls := by
  induction ls with
  | nil => intro init; rw [List.foldl_nil, List.foldl_nil, String.append_empty]
  | cons a as ih =>
    intro init
    rw [List.foldl_cons, List.foldl_cons, ih, ih ("" ++ a), String.empty_append,
      String.append_assoc]

theorem build_logbook_csv_eq (qsos : List QsoRec) :
    build_logbook_csv qsos =
      "indicativo,fecha,banda,modo\n" ++
        String.join ((logbookRows qsos).map fun l => l ++ "\n") := by
  rw [build_logbook_csv, intercalate_newline, foldl_append_init]
  rfl

theorem rowOf_isSome (qso : QsoRec) :
    (rowOf qso).isSome = true ↔ upperStr (recGet qso "CALL") ≠ "" := by
  simp only [rowOf]
  split
  · rename_i h
    simp [h]
  · rename_i h
    simp [h]

theorem rowOf_eq {qso : QsoRec} (h : upperStr (recGet qso "CALL") ≠ "") :
    rowOf qso =
      some (upperStr (recGet qso "CALL") ++ "," ++ formatDate (recGet qso "QSO_DATE") ++ "," ++
        (lookupRec qso "BAND").getD "?" ++ "," ++ (lookupRec qso "MODE").getD "?") := by
  simp only [rowOf]
  rw [if_neg h]

theorem formatDate_of_parts {y m d : String} (hy : y.length = 4) (hm : m.length = 2)
    (hd : d.length = 2) : formatDate (y ++ m ++ d) = d ++ "/" ++ m ++ "/" ++ y := by
  have h1 : y.data.length = 4 := hy
  have h2 : m.data.length = 2 := hm
  have h3 : d.data.length = 2 := hd
  have hdata : (y ++ m ++ d).data = y.data ++ m.data ++ d.data := by
    rw [String.data_append, String.data_append]
  have hlen : (y ++ m ++ d).length = 8 := by
    show (y ++ m ++ d).data.length = 8
    rw [hdata, List.length_append, List.length_append]
    omega
  rw [formatDate, if_pos hlen]
  have e1 : ((y ++ m ++ d).data.drop 6).take 2 = d.data := by
    rw [hdata, show (6 : Nat) = (y.data ++ m.data).length from by
      rw [List.length_append]; omega]
    rw [List.drop_left, ← h3, List.take_length]
  have e2 : ((y ++ m ++ d).data.drop 4).take 2 = m.data := by
    rw [hdata, List.append_assoc, show (4 : Nat) = y.data.length from h1.symm, List.drop_left,
      ← h2, List.take_left]
  have e3 : (y ++ m ++ d).data.take 4 = y.data := by
    rw [hdata, List.append_assoc, show (4 : Nat) = y.data.length from h1.symm, List.take_left]
  rw [e1, e2, e3]

theorem formatDate_of_ne8 {s : String} (h : s.length ≠ 8) : formatDate s = s := by
  rw [formatDate, if_neg h]

theorem parsePayload_of_all_space {adif : List Char}
    (h : ∀ c ∈ adif, isSpaceChar c = true) : parsePayload adif = [] := by
  rw [parsePayload]
  apply List.filterMap_eq_nil_iff.mpr
  intro chunk hchunk
  have hall : ∀ c ∈ chunk, isSpaceChar c = true := by
    intro c hc
    rcases splitEorAux_chars [] adif chunk hchunk c hc with h1 | h1
    · cases h1
    · exact h c h1
  have hstrip : (pyStrip chunk).isEmpty = true :=
    List.isEmpty_iff.mpr (pyStrip_eq_nil_of_all hall)
  rw [chunkToQso, if_pos hstrip]

theorem parseRaw_fail {raw : List Char} (h : containsStr "RESULT=FAIL".data raw = true) :
    parseRaw raw = Except.error (String.mk ((findReason raw).getD "desconocido".data)) := by
  rw [parseRaw, if_pos h]

theorem parseRaw_ok_none {raw : List Char} (h1 : containsStr "RESULT=FAIL".data raw = false)
    (h2 : findAdif raw = none) : parseRaw raw = Except.ok (parsePayload raw) := by
  rw [parseRaw, if_neg (by rw [h1]; exact Bool.false_ne_true)]
  simp only [h2]

theorem parseRaw_ok_some {raw rest : List Char} (h1 : containsStr "RESULT=FAIL".data raw = false)
    (h2 : findAdif raw = some rest) :
    parseRaw raw = Except.ok (parsePayload (unquote rest)) := by
  rw [parseRaw, if_neg (by rw [h1]; exact Bool.false_ne_true)]
  simp only [h2]

/-! ### Claim theorems -/

/-- C1: field extraction finds tags of shape NAME:LENGTH or NAME:LENGTH:TYPE
inside angle brackets; each field value is the literal text following the tag
up to (but not including) the next opening bracket or end of chunk, is then
truncated to the declared LENGTH, trimmed of surrounding whitespace, and
stored under the upper-cased name. Parsing the payload CALL:3 over ABCDEF
yields CALL = "ABC", and the three-field payload yields exactly one record
with CALL = "W1ABC", BAND = "40m", MODE = "SSB". -/
theorem claim1_field_extraction :
    parse_adif "<CALL:3>ABCDEF<eor>" = Except.ok [[("CALL", "ABC")]] ∧
    parse_adif "<CALL:5>W1ABC<BAND:3>40m<MODE:3>SSB<eor>" =
      Except.ok [[("CALL", "W1ABC"), ("BAND", "40m"), ("MODE", "SSB")]] ∧
    (∀ (s n : List Char) (len : Nat) (v r : List Char),
      matchField s = some (n, len, v, r) →
        n ≠ [] ∧ (∀ c ∈ n, isWordChar c = true) ∧
        ∃ ds rest0,
          ds ≠ [] ∧ (∀ c ∈ ds, c.isDigit = true) ∧ len = natOfDigits ds ∧
          v = rest0.takeWhile (fun d => d != '<') ∧
          (s = n ++ ':' :: (ds ++ '>' :: rest0) ∨
            ∃ ty, ty ≠ [] ∧ (∀ c ∈ ty, isWordChar c = true) ∧
              s = n ++ ':' :: (ds ++ ':' :: (ty ++ '>' :: rest0)))) ∧
    (∀ (chunk : List Char) (k w : String),
      (k, w) ∈ buildQso (extractFieldsAux chunk) →
        ∃ f ∈ extractFieldsAux chunk, k = String.mk (f.1.map Char.toUpper) ∧
          w = String.mk (pyStrip (f.2.2.take f.2.1))) := by
  refine ⟨by rfl, by rfl, ?_, ?_⟩
  · intro s n len v r h
    obtain ⟨hn, hne, ds, rest0, hds, hdig, hlen, hv, _, hshape⟩ := matchField_spec h
    refine ⟨hne, ?_, ds, rest0, hds, hdig, hlen, hv, hshape⟩
    intro c hc
    rw [hn] at hc
    exact List.mem_takeWhile_imp hc
  · intro chunk k w h
    obtain ⟨f, hf, hx⟩ := buildQso_mem h
    rw [Prod.mk.injEq] at hx
    exact ⟨f, hf, hx.1, hx.2⟩

theorem claim1_field_extraction_witness :
    ∃ f ∈ extractFieldsAux "<CALL:3>ABCDEF".data,
      ("CALL" : String) = String.mk (f.1.map Char.toUpper) ∧
      ("ABC" : String) = String.mk (pyStrip (f.2.2.take f.2.1)) :=
  claim1_field_extraction.2.2.2 "<CALL:3>ABCDEF".data "CALL" "ABC" (by decide)

/-- C2 counterexample: when the failure envelope carries no reason, the code
reports the literal reason "desconocido", not "unknown" as the claim
states. -/
theorem claim2_counterexample :
    parse_adif "RESULT=FAIL" = Except.error "desconocido" ∧
    parse_adif "RESULT=FAIL" ≠ Except.error "unknown" := by
  refine ⟨by rfl, fun h => ?_⟩
  rw [show parse_adif "RESULT=FAIL" = Except.error "desconocido" from rfl] at h
  injection h with h2
  exact absurd h2 (by decide)

/-- C2 (amended): on any input containing RESULT=FAIL, parsing fails fatally
with the reason being the substring between REASON= and the next ampersand,
verbatim and undecoded ("Invalid+Key" keeps its plus sign), defaulting to
the literal "desconocido" (Spanish for "unknown") when no such substring
exists. -/
theorem claim2_amended :
    parse_adif "RESULT=FAIL&REASON=Invalid+Key" = Except.error "Invalid+Key" ∧
    ∀ raw : List Char, containsStr "RESULT=FAIL".data raw = true →
      parseRaw raw = Except.error (String.mk ((findReason raw).getD "desconocido".data)) ∧
      (∀ v, findReason raw = some v →
        parseRaw raw = Except.error (String.mk v) ∧
        ∃ pre suf, raw = pre ++ "REASON=".data ++ v ++ suf ∧ v ≠ [] ∧
          (∀ c ∈ v, c ≠ '&') ∧ (suf = [] ∨ ∃ suf2, suf = '&' :: suf2)) ∧
      (findReason raw = none →
        parseRaw raw = Except.error "desconocido" ∧
        ¬∃ pre v suf, raw = pre ++ "REASON=".data ++ v ++ suf ∧ v ≠ [] ∧
          ∀ c ∈ v, c ≠ '&') := by
  refine ⟨by rfl, ?_⟩
  intro raw h
  refine ⟨parseRaw_fail h, ?_, ?_⟩
  · intro v hv
    refine ⟨?_, findReason_sound hv⟩
    rw [parseRaw_fail h, hv]
    rfl
  · intro hn
    refine ⟨?_, (findReason_none_iff raw).mp hn⟩
    rw [parseRaw_fail h, hn]
    rfl

theorem claim2_amended_witness :
    parseRaw "RESULT=FAIL&REASON=Invalid+Key".data =
      Except.error
        (String.mk ((findReason "RESULT=FAIL&REASON=Invalid+Key".data).getD
          "desconocido".data)) :=
  (claim2_amended.2 "RESULT=FAIL&REASON=Invalid+Key".data (by decide)).1

/-- C3: the payload is split on the case-insensitive end-of-record marker;
whitespace-only chunks are skipped; a record is kept iff at least one field
was extracted from its chunk (so no empty record ever appears); empty or
whitespace-only payloads yield no records. -/
theorem claim3_record_splitting :
    (∀ adif : List Char, (∀ c ∈ adif, isSpaceChar c = true) → parsePayload adif = []) ∧
    (∀ adif : List Char, pyStrip adif = [] → parsePayload adif = []) ∧
    (∀ adif : List Char, ∀ qso ∈ parsePayload adif, qso ≠ []) ∧
    (∀ chunk : List Char,
      (chunkToQso chunk).isSome = true ↔ pyStrip chunk ≠ [] ∧ extractFieldsAux chunk ≠ []) ∧
    splitEor "a<EoR>b<eor>".data = [['a'], ['b'], []] ∧
    parse_adif "" = Except.ok [] ∧
    parse_adif " \n\t " = Except.ok [] := by
  refine ⟨fun adif h => parsePayload_of_all_space h, ?_, ?_, chunkToQso_isSome,
    by rfl, by rfl, by rfl⟩
  · intro adif h
    exact parsePayload_of_all_space (all_space_of_pyStrip_eq_nil h)
  · intro adif qso h
    obtain ⟨chunk, _, hc, hq, _⟩ := mem_parsePayload h
    intro hqnil
    simp only [chunkToQso] at hc
    split at hc
    · exact Option.noConfusion hc
    · split at hc
      · exact Option.noConfusion hc
      · rename_i hne
        injection hc with h2
        rw [← h2] at hqnil
        exact hne (by rw [hqnil]; rfl)

theorem claim3_record_splitting_witness :
    parsePayload " ".data = [] ∧ (chunkToQso "<CALL:2>AB".data).isSome = true :=
  ⟨claim3_record_splitting.2.1 " ".data (by decide),
    (claim3_record_splitting.2.2.2.1 "<CALL:2>AB".data).mpr ⟨by decide, by decide⟩⟩

theorem countryKey_some_iff (q : QsoRec) (x : String) :
    countryKey q = some x ↔ countryOf q ≠ "" ∧ x = countryOf q := by
  unfold countryKey
  by_cases h : countryOf q = ""
  · simp [h]
  · simp [h, eq_comm]

theorem bandKey_some_iff (q : QsoRec) (x : String) :
    bandKey q = some x ↔ recGet q "BAND" ≠ "" ∧ x = lowerStr (recGet q "BAND") := by
  unfold bandKey
  by_cases h : recGet q "BAND" = ""
  · simp [h]
  · simp [h, eq_comm]

theorem modeKey_some_iff (q : QsoRec) (x : String) :
    modeKey q = some x ↔ recGet q "MODE" ≠ "" ∧ x = upperStr (recGet q "MODE") := by
  unfold modeKey
  by_cases h : recGet q "MODE" = ""
  · simp [h]
  · simp [h, eq_comm]

theorem statsSets_decomp (qsos : List QsoRec) :
    statsSets qsos =
      (dimFold countryKey qsos [], dimFold bandKey qsos [], dimFold modeKey qsos []) :=
  statsSets_eq qsos ([], [], [])

theorem compute_stats_eq (qsos : List QsoRec) :
    compute_stats qsos =
      ⟨qsos.length, (dimFold countryKey qsos []).length, (dimFold bandKey qsos []).length,
        (dimFold modeKey qsos []).length, sortStrings (dimFold countryKey qsos []),
        sortStrings (dimFold bandKey qsos []), sortStrings (dimFold modeKey qsos [])⟩ := by
  rw [compute_stats, statsSets_decomp]

/-- C4: the aggregator derives each record's country by preferring COUNTRY
and falling back to DXCC when COUNTRY is empty or absent, added verbatim
when non-empty; bands are lower-cased and modes upper-cased, empty values
excluded; each dimension's count equals its set cardinality and its list is
the deduplicated set sorted in ascending lexicographic order; two records
with BAND "40M" and "40m" give band count 1 and band list ["40m"]. -/
theorem claim4_aggregator :
    (∀ qsos : List QsoRec,
      ((compute_stats qsos).countries = (compute_stats qsos).country_list.length ∧
        (compute_stats qsos).bands = (compute_stats qsos).band_list.length ∧
        (compute_stats qsos).modes = (compute_stats qsos).mode_list.length) ∧
      (List.Pairwise (fun a b : String => strLtB a.data b.data = true)
          (compute_stats qsos).country_list ∧
        List.Pairwise (fun a b : String => strLtB a.data b.data = true)
          (compute_stats qsos).band_list ∧
        List.Pairwise (fun a b : String => strLtB a.data b.data = true)
          (compute_stats qsos).mode_list) ∧
      (∀ x : String, x ∈ (compute_stats qsos).country_list ↔
        ∃ qso ∈ qsos, countryOf qso ≠ "" ∧ x = countryOf qso) ∧
      (∀ x : String, x ∈ (compute_stats qsos).band_list ↔
        ∃ qso ∈ qsos, recGet qso "BAND" ≠ "" ∧ x = lowerStr (recGet qso "BAND")) ∧
      (∀ x : String, x ∈ (compute_stats qsos).mode_list ↔
        ∃ qso ∈ qsos, recGet qso "MODE" ≠ "" ∧ x = upperStr (recGet qso "MODE"))) ∧
    (compute_stats [[("BAND", "40M")], [("BAND", "40m")]]).bands = 1 ∧
    (compute_stats [[("BAND", "40M")], [("BAND", "40m")]]).band_list = ["40m"] := by
  refine ⟨?_, by rfl, by rfl⟩
  intro qsos
  rw [compute_stats_eq]
  refine ⟨⟨(length_sortStrings _).symm, (length_sortStrings _).symm,
    (length_sortStrings _).symm⟩, ?_, ?_, ?_, ?_⟩
  · exact ⟨sortStrings_pairwise_lt (dimFold_nodup _ _ _ List.nodup_nil),
      sortStrings_pairwise_lt (dimFold_nodup _ _ _ List.nodup_nil),
      sortStrings_pairwise_lt (dimFold_nodup _ _ _ List.nodup_nil)⟩
  · intro x
    rw [mem_sortStrings, dimFold_mem]
    simp only [List.not_mem_nil, false_or]
    constructor
    · rintro ⟨q, hq, hk⟩
      exact ⟨q, hq, (countryKey_some_iff q x).mp hk⟩
    · rintro ⟨q, hq, hk⟩
      exact ⟨q, hq, (countryKey_some_iff q x).mpr hk⟩
  · intro x
    rw [mem_sortStrings, dimFold_mem]
    simp only [List.not_mem_nil, false_or]
    constructor
    · rintro ⟨q, hq, hk⟩
      exact ⟨q, hq, (bandKey_some_iff q x).mp hk⟩
    · rintro ⟨q, hq, hk⟩
      exact ⟨q, hq, (bandKey_some_iff q x).mpr hk⟩
  · intro x
    rw [mem_sortStrings, dimFold_mem]
    simp only [List.not_mem_nil, false_or]
    constructor
    · rintro ⟨q, hq, hk⟩
      exact ⟨q, hq, (modeKey_some_iff q x).mp hk⟩
    · rintro ⟨q, hq, hk⟩
      exact ⟨q, hq, (modeKey_some_iff q x).mpr hk⟩

theorem claim4_aggregator_witness :
    ("40m" : String) ∈ (compute_stats [[("BAND", "40M")]]).band_list :=
  ((claim4_aggregator.1 [[("BAND", "40M")]]).2.2.2.1 "40m").mpr
    ⟨[("BAND", "40M")], by decide, by decide, by decide⟩

theorem rowOf_isSome_eq (q : QsoRec) :
    (rowOf q).isSome = (upperStr (recGet q "CALL") != "") := by
  simp only [rowOf]
  split
  · rename_i h
    rw [h]
    rfl
  · rename_i h
    simp [bne_iff_ne, h]

/-- C5: Stats.total equals the length of the full record sequence computed
before any filtering, while the exporter emits a data row for a record iff
its upper-cased CALL is non-empty; ineligible records are silently omitted
without affecting the total, so 3 records of which one lacks CALL give a
header plus exactly 2 data rows while total = 3. -/
theorem claim5_total_vs_rows :
    (∀ qsos : List QsoRec, (compute_stats qsos).total = qsos.length) ∧
    (∀ qso : QsoRec, (rowOf qso).isSome = true ↔ upperStr (recGet qso "CALL") ≠ "") ∧
    (∀ qsos : List QsoRec,
      (logbookRows qsos).length =
        (qsos.filter fun q => upperStr (recGet q "CALL") != "").length) ∧
    (compute_stats [[("CALL", "W1"), ("BAND", "40m")], [("BAND", "20m")],
      [("CALL", "K2")]]).total = 3 ∧
    (logbookRows [[("CALL", "W1"), ("BAND", "40m")], [("BAND", "20m")],
      [("CALL", "K2")]]).length = 2 ∧
    build_logbook_csv [[("CALL", "W1"), ("BAND", "40m")], [("BAND", "20m")],
      [("CALL", "K2")]] = "indicativo,fecha,banda,modo\nW1,,40m,?\nK2,,?,?\n" := by
  refine ⟨fun qsos => rfl, rowOf_isSome, ?_, by rfl, by rfl, by rfl⟩
  intro qsos
  rw [logbookRows, length_filterMap_eq]
  congr 1
  apply List.filter_congr
  intro q _
  exact rowOf_isSome_eq q

theorem claim5_total_vs_rows_witness :
    (rowOf [(("CALL" : String), ("w1" : String))]).isSome = true :=
  (claim5_total_vs_rows.2.1 [("CALL", "w1")]).mpr (by decide)

/-- C6 counterexample: the code reformats any QSO_DATE of exactly 8
characters, digits or not; "ABCDEFGH" is not 8 raw digits, yet the exported
date column becomes "GH/EF/ABCD" instead of passing through unchanged as
the claim states. -/
theorem claim6_counterexample :
    build_logbook_csv [[("CALL", "X"), ("QSO_DATE", "ABCDEFGH")]] =
      "indicativo,fecha,banda,modo\nX,GH/EF/ABCD,?,?\n" ∧
    build_logbook_csv [[("CALL", "X"), ("QSO_DATE", "ABCDEFGH")]] ≠
      "indicativo,fecha,banda,modo\nX,ABCDEFGH,?,?\n" := by
  refine ⟨by rfl, fun h => ?_⟩
  rw [show build_logbook_csv [[("CALL", "X"), ("QSO_DATE", "ABCDEFGH")]] =
    "indicativo,fecha,banda,modo\nX,GH/EF/ABCD,?,?\n" from rfl] at h
  exact absurd h (by decide)

/-- C6 (amended): the exported date column is QSO_DATE reinterpreted as
YYYYMMDD and reformatted to DD/MM/YYYY whenever QSO_DATE has exactly 8
characters (digits or not), and is passed through unchanged for every other
length, including the empty string; "20240115" becomes "15/01/2024" and
"2024" stays "2024". -/
theorem claim6_amended :
    (∀ y m d : String, y.length = 4 → m.length = 2 → d.length = 2 →
      formatDate (y ++ m ++ d) = d ++ "/" ++ m ++ "/" ++ y) ∧
    (∀ s : String, s.length ≠ 8 → formatDate s = s) ∧
    (∀ qso : QsoRec, upperStr (recGet qso "CALL") ≠ "" →
      rowOf qso = some (upperStr (recGet qso "CALL") ++ "," ++
        formatDate (recGet qso "QSO_DATE") ++ "," ++ (lookupRec qso "BAND").getD "?" ++ "," ++
        (lookupRec qso "MODE").getD "?")) ∧
    build_logbook_csv [[("CALL", "X"), ("QSO_DATE", "20240115")]] =
      "indicativo,fecha,banda,modo\nX,15/01/2024,?,?\n" ∧
    build_logbook_csv [[("CALL", "X"), ("QSO_DATE", "2024")]] =
      "indicativo,fecha,banda,modo\nX,2024,?,?\n" ∧
    formatDate "ABCDEFGH" = "GH/EF/ABCD" :=
  ⟨fun y m d hy hm hd => formatDate_of_parts hy hm hd,
    fun s h => formatDate_of_ne8 h,
    fun qso h => rowOf_eq h,
    by rfl, by rfl, by rfl⟩

theorem claim6_amended_witness :
    formatDate ("2024" ++ "01" ++ "15") = "15" ++ "/" ++ "01" ++ "/" ++ "2024" ∧
    formatDate "2024" = "2024" :=
  ⟨claim6_amended.1 "2024" "01" "15" (by decide) (by decide) (by decide),
    claim6_amended.2.1 "2024" (by decide)⟩

/-- C7: the exporter's blob is the header line followed by one comma-joined
line per eligible record in input order, each line terminated by a newline
so the blob ends in a trailing newline; BAND and MODE get the literal
placeholder "?" only when the field is absent (a present-but-empty field
stays empty), and CALL and the date have no placeholder. -/
theorem claim7_exporter_format :
    (∀ qsos : List QsoRec,
      build_logbook_csv qsos =
        "indicativo,fecha,banda,modo\n" ++
          String.join ((logbookRows qsos).map fun l => l ++ "\n")) ∧
    (∀ qsos : List QsoRec, logbookRows qsos = qsos.filterMap rowOf) ∧
    (∀ qsos1 qsos2 : List QsoRec,
      logbookRows (qsos1 ++ qsos2) = logbookRows qsos1 ++ logbookRows qsos2) ∧
    (∀ qso : QsoRec, lookupRec qso "BAND" = none → upperStr (recGet qso "CALL") ≠ "" →
      rowOf qso = some (upperStr (recGet qso "CALL") ++ "," ++
        formatDate (recGet qso "QSO_DATE") ++ "," ++ "?" ++ "," ++
        (lookupRec qso "MODE").getD "?")) ∧
    build_logbook_csv [[("CALL", "A")], [("CALL", "B"), ("BAND", ""), ("MODE", "CW")]] =
      "indicativo,fecha,banda,modo\nA,,?,?\nB,,,CW\n" := by
  refine ⟨build_logbook_csv_eq, fun qsos => rfl,
    fun qsos1 qsos2 => List.filterMap_append _ _ _, ?_, by rfl⟩
  intro qso h1 h2
  rw [rowOf_eq h2, h1]
  rfl

theorem claim7_exporter_format_witness :
    rowOf [(("CALL" : String), ("A" : String))] =
      some (upperStr (recGet [(("CALL" : String), ("A" : String))] "CALL") ++ "," ++
        formatDate (recGet [(("CALL" : String), ("A" : String))] "QSO_DATE") ++ "," ++ "?" ++
        "," ++ (lookupRec [(("CALL" : String), ("A" : String))] "MODE").getD "?") :=
  claim7_exporter_format.2.2.2.1 [("CALL", "A")] (by decide) (by decide)

/-- C8: on any input without the failure marker, if the input contains
ADIF= then everything after the first such marker is percent-decoded and
parsed as the ADIF payload; without the marker the whole input is used
directly, and that is not an error. -/
theorem claim8_adif_marker :
    (∀ raw : List Char, containsStr "RESULT=FAIL".data raw = false →
      (findAdif raw = none →
        parseRaw raw = Except.ok (parsePayload raw) ∧
        containsStr "ADIF=".data raw = false) ∧
      (∀ rest : List Char, findAdif raw = some rest →
        parseRaw raw = Except.ok (parsePayload (unquote rest)) ∧
        ∃ pre, raw = pre ++ "ADIF=".data ++ rest ∧
          ∀ p q : List Char, raw = p ++ "ADIF=".data ++ q → pre.length ≤ p.length)) ∧
    parse_adif "X=1&ADIF=%3CCALL:2%3EAB<eor>" = Except.ok [[("CALL", "AB")]] ∧
    parse_adif "<CALL:2>AB<eor>" = Except.ok [[("CALL", "AB")]] := by
  refine ⟨?_, by rfl, by rfl⟩
  intro raw h
  constructor
  · intro hn
    exact ⟨parseRaw_ok_none h hn, (findAdif_none_iff raw).mp hn⟩
  · intro rest hs
    exact ⟨parseRaw_ok_some h hs, findAdif_sound hs⟩

theorem claim8_adif_marker_witness :
    parseRaw "<CALL:2>AB<eor>".data = Except.ok (parsePayload "<CALL:2>AB<eor>".data) ∧
    containsStr "ADIF=".data "<CALL:2>AB<eor>".data = false :=
  ((claim8_adif_marker.1 "<CALL:2>AB<eor>".data (by decide)).1 (by decide))

/-- C9: the parser fails exactly when the raw input contains RESULT=FAIL;
every other input, however malformed, yields a (possibly empty) record
sequence without failing — malformed tags simply contribute nothing. -/
theorem claim9_never_fails_otherwise :
    (∀ raw : String,
      (∃ e, parse_adif raw = Except.error e) ↔
        containsStr "RESULT=FAIL".data raw.data = true) ∧
    (∀ raw : String,
      (∃ qsos, parse_adif raw = Except.ok qsos) ↔
        containsStr "RESULT=FAIL".data raw.data = false) ∧
    parse_adif "<<<:::>>garbage<eor" = Except.ok [] := by
  refine ⟨?_, ?_, by rfl⟩
  · intro raw
    by_cases h : containsStr "RESULT=FAIL".data raw.data = true
    · rw [parse_adif, parseRaw, if_pos h]
      exact ⟨fun _ => h, fun _ => ⟨_, rfl⟩⟩
    · rw [parse_adif, parseRaw, if_neg h]
      constructor
      · rintro ⟨e, he⟩
        exact Except.noConfusion he
      · intro h2
        exact absurd h2 h
  · intro raw
    by_cases h : containsStr "RESULT=FAIL".data raw.data = true
    · rw [parse_adif, parseRaw, if_pos h]
      constructor
      · rintro ⟨qsos, hq⟩
        exact Except.noConfusion hq
      · intro h2
        rw [h] at h2
        exact Bool.noConfusion h2
    · rw [parse_adif, parseRaw, if_neg h]
      refine ⟨fun _ => ?_, fun _ => ⟨_, rfl⟩⟩
      rwa [Bool.not_eq_true] at h

theorem claim9_never_fails_otherwise_witness :
    ∃ qsos, parse_adif "no markers at all <CALL:1" = Except.ok qsos :=
  (claim9_never_fails_otherwise.2.1 "no markers at all <CALL:1").mpr (by decide)

/-- C10: every record binding produced by the parser has a field name
without lower-case letters (it is an upper-cased regex word), a value with
no opening angle bracket, no leading or trailing whitespace, and length at
most the declared LENGTH of the extracted field it came from; when the same
field name occurs several times in a chunk (case-insensitively), the stored
value is that of the last occurrence. -/
theorem claim10_record_invariants :
    (∀ (raw : List Char) (qsos : List QsoRec) (qso : QsoRec) (k v : String),
      parseRaw raw = Except.ok qsos → qso ∈ qsos → (k, v) ∈ qso →
        (∀ c ∈ k.data, c.isLower = false) ∧
        (∀ c ∈ v.data, c ≠ '<') ∧
        (∀ c, v.data.head? = some c → isSpaceChar c = false) ∧
        (∀ c, v.data.getLast? = some c → isSpaceChar c = false) ∧
        ∃ chunk f, f ∈ extractFieldsAux chunk ∧ k = String.mk (f.1.map Char.toUpper) ∧
          v = String.mk (pyStrip (f.2.2.take f.2.1)) ∧ v.length ≤ f.2.1) ∧
    (∀ (fs1 : List (List Char × Nat × List Char)) (f : List Char × Nat × List Char)
        (fs2 : List (List Char × Nat × List Char)),
      (∀ g ∈ fs2, String.mk (g.1.map Char.toUpper) ≠ String.mk (f.1.map Char.toUpper)) →
      lookupRec (buildQso (fs1 ++ f :: fs2)) (String.mk (f.1.map Char.toUpper)) =
        some (String.mk (pyStrip (f.2.2.take f.2.1)))) := by
  constructor
  · intro raw qsos qso k v hok hqso hkv
    have hpp : ∃ adif, qso ∈ parsePayload adif := by
      simp only [parseRaw] at hok
      split at hok
      · exact Except.noConfusion hok
      · injection hok with h2
        exact ⟨_, h2 ▸ hqso⟩
    obtain ⟨adif, hmem⟩ := hpp
    obtain ⟨chunk, _, _, hq, _⟩ := mem_parsePayload hmem
    rw [hq] at hkv
    obtain ⟨f, hf, hx⟩ := buildQso_mem hkv
    rw [Prod.mk.injEq] at hx
    obtain ⟨hk, hv⟩ := hx
    obtain ⟨_, _, hnolt⟩ := extractFields_props hf
    have hkdata : k.data = f.1.map Char.toUpper := by rw [hk]; rfl
    have hvdata : v.data = pyStrip (f.2.2.take f.2.1) := by rw [hv]; rfl
    refine ⟨?_, ?_, ?_, ?_, chunk, f, hf, hk, hv, ?_⟩
    · intro c hc
      rw [hkdata] at hc
      obtain ⟨c0, _, hc0⟩ := List.mem_map.mp hc
      rw [← hc0]
      exact toUpper_isLower_false c0
    · intro c hc
      rw [hvdata] at hc
      exact hnolt c (List.mem_of_mem_take (mem_of_mem_pyStrip hc))
    · intro c hc
      rw [hvdata] at hc
      exact pyStrip_head_not_space hc
    · intro c hc
      rw [hvdata] at hc
      exact pyStrip_getLast_not_space hc
    · show v.data.length ≤ f.2.1
      rw [hvdata]
      calc (pyStrip (f.2.2.take f.2.1)).length ≤ (f.2.2.take f.2.1).length :=
            pyStrip_length_le _
        _ ≤ f.2.1 := List.length_take_le _ _
  · intro fs1 f fs2 h
    exact buildQso_last_wins fs1 f fs2 h

theorem claim10_record_invariants_witness :
    (∀ c ∈ ("CALL" : String).data, c.isLower = false) ∧
    (∀ c ∈ ("ABC" : String).data, c ≠ '<') ∧
    (∀ c, ("ABC" : String).data.head? = some c → isSpaceChar c = false) ∧
    (∀ c, ("ABC" : String).data.getLast? = some c → isSpaceChar c = false) ∧
    ∃ chunk f, f ∈ extractFieldsAux chunk ∧
      ("CALL" : String) = String.mk (f.1.map Char.toUpper) ∧
      ("ABC" : String) = String.mk (pyStrip (f.2.2.take f.2.1)) ∧
      ("ABC" : String).length ≤ f.2.1 :=
  claim10_record_invariants.1 "<CALL:3>ABCDEF<eor>".data [[("CALL", "ABC")]]
    [("CALL", "ABC")] "CALL" "ABC" (by rfl) (by decide) (by decide)
